import Mathlib

/-!
Verification of the log-synchronization core of `fritz_isp_toolkit`.

The Python sources embedded here are `modules/classes.py` (`LogEntry`) and
`modules/isp_toolkit.py` (`load_list_from_logfile`, `append_list_to_logfile`,
`get_list_from_device`, `get_list_of_new_entries`).

Modelling conventions:
* Timestamps that have been successfully parsed are modelled as `Int`
  (an absolute instant; only their order matters to the diff engine).
  The parsing stage, where `dateparser.parse` may return `None`, uses
  `Option Int`.
* Python `list.sort(key=...)` is a stable comparison sort; it is modelled
  by `List.insertionSort` (stable, structurally recursive, hence fully
  evaluable by the kernel).
* `get_list_of_new_entries` mutates its `device_entries` argument by
  popping from the end; the model returns the pair
  `(new_entries, device_entries after the call)`.  A Python `IndexError`
  (evaluating `device_entries[-1]` on an emptied list) is modelled as
  `none`.
-/

namespace Fritz

/-- One parsed log record of the diff stage: a `LogEntry` whose
`dateparser` timestamp resolved to an instant (modelled as `Int`)
together with its message text. -/
structure LogEntry where
  timestamp : Int
  message : String
  deriving DecidableEq, Repr

/-- The comparison used by every `sort(key=lambda entry: entry.timestamp)`
call in `isp_toolkit.py`. -/
def tsLe (a b : LogEntry) : Prop := a.timestamp ≤ b.timestamp

instance : DecidableRel tsLe := fun a b => Int.decLe a.timestamp b.timestamp

instance : IsTotal LogEntry tsLe := ⟨fun a b => Int.le_total a.timestamp b.timestamp⟩

instance : IsTrans LogEntry tsLe := ⟨fun _ _ _ hab hbc => le_trans hab hbc⟩

/-- Model of `log_entries.sort(key=lambda entry: entry.timestamp)`:
a stable sort, ascending by timestamp. -/
def sortByTs (l : List LogEntry) : List LogEntry := List.insertionSort tsLe l

/-- Model of the loop

    while device_entries[-1].timestamp > file_entries[-1].timestamp:
        new_entries.append(device_entries.pop())

operating on the REVERSED device list (so the Python list's last element is
the head here).  Returns `none` when the list is exhausted and the loop
condition is evaluated again (Python raises `IndexError`), otherwise
`some (popped entries in pop order, remaining reversed list)`. -/
def popNewer (w : Int) : List LogEntry → Option (List LogEntry × List LogEntry)
  | [] => none
  | e :: rest =>
    if w < e.timestamp then
      match popNewer w rest with
      | none => none
      | some (taken, left) => some (e :: taken, left)
    else
      some ([], e :: rest)

/-- Model of `get_list_of_new_entries(device_entries, file_entries)`
(`isp_toolkit.py` lines 141-172).  The result is
`some (new_entries, device_entries after the call)`; `none` models the
`IndexError` raised when the while-loop empties `device_entries` and then
evaluates `device_entries[-1]` once more. -/
def get_list_of_new_entries (device_entries file_entries : List LogEntry) :
    Option (List LogEntry × List LogEntry) :=
  match file_entries.getLast? with
  | none => some (device_entries, device_entries)
  | some lastLocal =>
    if device_entries.isEmpty then
      some ([], device_entries)
    else
      match popNewer lastLocal.timestamp device_entries.reverse with
      | none => none
      | some (taken, leftRev) => some (sortByTs taken, leftRev.reverse)

/-- The strict watermark test of the while-loop condition, as a `Bool`
predicate on entries. -/
def newerThan (w : Int) (e : LogEntry) : Bool := decide (w < e.timestamp)

theorem popNewer_eq (w : Int) (l : List LogEntry) :
    popNewer w l =
      if l.dropWhile (newerThan w) = [] then none
      else some (l.takeWhile (newerThan w), l.dropWhile (newerThan w)) := by
  induction l with
  | nil => simp [popNewer]
  | cons e rest ih =>
    by_cases h : w < e.timestamp
    · have hP : newerThan w e = true := by simp [newerThan, h]
      rw [popNewer, if_pos h, ih]
      rw [List.takeWhile_cons, List.dropWhile_cons, hP]
      by_cases hd : rest.dropWhile (newerThan w) = []
      · simp [hd]
      · simp [hd]
    · have hP : newerThan w e = false := by simp [newerThan, h]
      rw [popNewer, if_neg h]
      rw [List.takeWhile_cons, List.dropWhile_cons, hP]
      simp

theorem sortedDesc_takeWhile_dropWhile (w : Int) (l : List LogEntry)
    (h : List.Pairwise (fun a b => b.timestamp ≤ a.timestamp) l) :
    l.takeWhile (newerThan w) = l.filter (newerThan w) ∧
    l.dropWhile (newerThan w) = l.filter (fun e => !newerThan w e) := by
  induction l with
  | nil => simp
  | cons e rest ih =>
    obtain ⟨he, hrest⟩ := List.pairwise_cons.mp h
    obtain ⟨iht, ihd⟩ := ih hrest
    by_cases hP : w < e.timestamp
    · have hPe : newerThan w e = true := by simp [newerThan, hP]
      constructor
      · rw [List.takeWhile_cons, List.filter_cons, hPe, iht]
        simp
      · rw [List.dropWhile_cons, List.filter_cons, hPe, ihd]
        simp
    · have hPe : newerThan w e = false := by simp [newerThan, hP]
      have hle : e.timestamp ≤ w := le_of_not_lt hP
      have hall : ∀ x ∈ rest, newerThan w x = false := by
        intro x hx
        have : x.timestamp ≤ w := le_trans (he x hx) hle
        simp [newerThan]
        omega
      constructor
      · rw [List.takeWhile_cons, List.filter_cons, hPe]
        simp only [Bool.false_eq_true, if_false, cond_false]
        exact (List.filter_eq_nil_iff.mpr (fun a ha => by simp [hall a ha])).symm
      · rw [List.dropWhile_cons, List.filter_cons, hPe]
        simp only [Bool.false_eq_true, if_false]
        have : rest.filter (fun e => !newerThan w e) = rest :=
          List.filter_eq_self.mpr (fun a ha => by simp [hall a ha])
        simp [this]

/-- Full characterization of a successful diff call on a sorted device
list: the returned device state is the prefix at or below the watermark,
and the returned new entries are the sorted strictly-newer suffix. -/
theorem get_some_sorted (D L : List LogEntry) (lf : LogEntry)
    (hD : List.Sorted tsLe D) (hL : L.getLast? = some lf)
    (res devA : List LogEntry)
    (h : get_list_of_new_entries D L = some (res, devA)) :
    devA = D.filter (fun e => !newerThan lf.timestamp e) ∧
    res = sortByTs ((D.filter (newerThan lf.timestamp)).reverse) := by
  cases D with
  | nil =>
    simp [get_list_of_new_entries, hL] at h
    obtain ⟨h1, h2⟩ := h
    subst h1
    subst h2
    simp [sortByTs, List.insertionSort]
  | cons d ds =>
    have hrev : List.Pairwise (fun a b => b.timestamp ≤ a.timestamp) (d :: ds).reverse := by
      rw [List.pairwise_reverse]
      exact hD
    obtain ⟨htake, hdrop⟩ := sortedDesc_takeWhile_dropWhile lf.timestamp (d :: ds).reverse hrev
    rw [get_list_of_new_entries, hL] at h
    simp only [List.isEmpty_cons, if_false, Bool.false_eq_true] at h
    rw [popNewer_eq] at h
    by_cases hnil : (d :: ds).reverse.dropWhile (newerThan lf.timestamp) = []
    · rw [if_pos hnil] at h
      exact absurd h (by simp)
    · rw [if_neg hnil] at h
      have h1 : res = sortByTs ((d :: ds).reverse.takeWhile (newerThan lf.timestamp)) := by
        injection h with h'
        exact (congrArg Prod.fst h').symm
      have h2 : devA = ((d :: ds).reverse.dropWhile (newerThan lf.timestamp)).reverse := by
        injection h with h'
        exact (congrArg Prod.snd h').symm
      constructor
      · rw [h2, hdrop, List.filter_reverse, List.reverse_reverse]
      · rw [h1, htake, List.filter_reverse]

theorem sorted_getLast_max (N : List LogEntry) (m : LogEntry)
    (hs : List.Sorted tsLe N) (hm : N.getLast? = some m) :
    ∀ x ∈ N, x.timestamp ≤ m.timestamp := by
  induction N with
  | nil => simp at hm
  | cons a t ih =>
    cases t with
    | nil =>
      simp at hm
      subst hm
      intro x hx
      simp at hx
      subst hx
      exact le_refl _
    | cons b u =>
      have hm' : (b :: u).getLast? = some m := by
        rw [List.getLast?_cons_cons] at hm
        exact hm
      have hpc := List.pairwise_cons.mp hs
      intro x hx
      rcases List.mem_cons.mp hx with hxa | hxt
      · subst hxa
        have hmmem : m ∈ b :: u := by
          obtain ⟨l', hl'⟩ := List.getLast?_eq_some_iff.mp hm'
          rw [hl']
          exact List.mem_append_right _ (List.mem_singleton.mpr rfl)
        exact hpc.1 m hmmem
      · exact ih hpc.2 hm' x hxt

/-- Claim C7: on an empty local store the diff returns the device list
itself, order preserved (and the device list is left unchanged). -/
theorem new_entries_empty_store (D : List LogEntry)
    (hne : D ≠ []) (hs : List.Sorted tsLe D) :
    get_list_of_new_entries D [] = some (D, D) := rfl

theorem new_entries_empty_store_witness :
    (([⟨1, "a"⟩] : List LogEntry) ≠ [] ∧ List.Sorted tsLe [⟨1, "a"⟩]) ∧
      get_list_of_new_entries [⟨1, "a"⟩] [] = some ([⟨1, "a"⟩], [⟨1, "a"⟩]) :=
  ⟨⟨by decide, by decide⟩,
    new_entries_empty_store [⟨1, "a"⟩] (by decide) (by decide)⟩

/-- Claim C6: with a non-empty sorted local list and sorted device list,
any device entry whose timestamp equals the watermark (the last local
timestamp) is excluded from the returned new entries; moreover the call
succeeds. -/
theorem new_entries_tie_exclusion (D L : List LogEntry) (lf e : LogEntry)
    (hD : List.Sorted tsLe D) (hLs : List.Sorted tsLe L)
    (hL : L.getLast? = some lf) (he : e ∈ D) (ht : e.timestamp = lf.timestamp) :
    ∃ res devA, get_list_of_new_entries D L = some (res, devA) ∧ e ∉ res := by
  cases D with
  | nil => exact absurd he (List.not_mem_nil e)
  | cons d ds =>
    have hPe : newerThan lf.timestamp e = false := by
      simp [newerThan, ht]
    have hnil : (d :: ds).reverse.dropWhile (newerThan lf.timestamp) ≠ [] := by
      intro hcon
      have := List.dropWhile_eq_nil_iff.mp hcon e (List.mem_reverse.mpr he)
      rw [hPe] at this
      exact Bool.false_ne_true this
    refine ⟨sortByTs ((d :: ds).reverse.takeWhile (newerThan lf.timestamp)),
      ((d :: ds).reverse.dropWhile (newerThan lf.timestamp)).reverse, ?_, ?_⟩
    · rw [get_list_of_new_entries, hL]
      simp only [List.isEmpty_cons, Bool.false_eq_true, if_false]
      rw [popNewer_eq, if_neg hnil]
    · intro hmem
      have hmem' : e ∈ (d :: ds).reverse.takeWhile (newerThan lf.timestamp) :=
        ((List.perm_insertionSort tsLe _).mem_iff).mp hmem
      have := List.mem_takeWhile_imp hmem'
      rw [hPe] at this
      exact Bool.false_ne_true this

theorem new_entries_tie_exclusion_witness :
    (List.Sorted tsLe ([⟨1, "a"⟩, ⟨2, "c"⟩] : List LogEntry) ∧
      List.Sorted tsLe ([⟨2, "b"⟩] : List LogEntry) ∧
      ([⟨2, "b"⟩] : List LogEntry).getLast? = some ⟨2, "b"⟩ ∧
      (⟨2, "c"⟩ : LogEntry) ∈ ([⟨1, "a"⟩, ⟨2, "c"⟩] : List LogEntry) ∧
      (⟨2, "c"⟩ : LogEntry).timestamp = (⟨2, "b"⟩ : LogEntry).timestamp) ∧
    ∃ res devA,
      get_list_of_new_entries [⟨1, "a"⟩, ⟨2, "c"⟩] [⟨2, "b"⟩] = some (res, devA) ∧
      (⟨2, "c"⟩ : LogEntry) ∉ res :=
  ⟨⟨by decide, by decide, by decide, by decide, by decide⟩,
    new_entries_tie_exclusion [⟨1, "a"⟩, ⟨2, "c"⟩] [⟨2, "b"⟩] ⟨2, "b"⟩ ⟨2, "c"⟩
      (by decide) (by decide) (by decide) (by decide) (by decide)⟩

/-- Claim C8: on pre-sorted inputs, whenever the diff succeeds its output
is sorted non-decreasing by timestamp. -/
theorem new_entries_ordering_invariant (D L res devA : List LogEntry)
    (hD : List.Sorted tsLe D) (hLs : List.Sorted tsLe L)
    (h : get_list_of_new_entries D L = some (res, devA)) :
    List.Sorted tsLe res := by
  cases hL : L.getLast? with
  | none =>
    rw [get_list_of_new_entries, hL] at h
    have : D = res := by
      injection h with h'
      exact congrArg Prod.fst h'
    rw [← this]
    exact hD
  | some lf =>
    obtain ⟨_, hres⟩ := get_some_sorted D L lf hD hL res devA h
    rw [hres]
    exact List.sorted_insertionSort tsLe _

theorem new_entries_ordering_invariant_witness :
    (List.Sorted tsLe ([⟨1, "a"⟩, ⟨3, "c"⟩] : List LogEntry) ∧
      List.Sorted tsLe ([⟨2, "b"⟩] : List LogEntry) ∧
      get_list_of_new_entries [⟨1, "a"⟩, ⟨3, "c"⟩] [⟨2, "b"⟩] =
        some ([⟨3, "c"⟩], [⟨1, "a"⟩])) ∧
    List.Sorted tsLe ([⟨3, "c"⟩] : List LogEntry) :=
  ⟨⟨by decide, by decide, by decide⟩,
    new_entries_ordering_invariant [⟨1, "a"⟩, ⟨3, "c"⟩] [⟨2, "b"⟩] [⟨3, "c"⟩]
      [⟨1, "a"⟩] (by decide) (by decide) (by decide)⟩

/-- Claim C5: the diff destructively consumes its device argument.  On a
sorted device list with a non-empty local list, a successful call leaves
the device list holding exactly the entries at or below the watermark,
and the returned entries are (a permutation of) the strictly-newer ones
that were popped off its end. -/
theorem new_entries_mutates_device (D L : List LogEntry) (lf : LogEntry)
    (res devA : List LogEntry)
    (hD : List.Sorted tsLe D) (hL : L.getLast? = some lf)
    (h : get_list_of_new_entries D L = some (res, devA)) :
    devA = D.filter (fun e => decide (e.timestamp ≤ lf.timestamp)) ∧
    res.Perm (D.filter (fun e => decide (lf.timestamp < e.timestamp))) := by
  obtain ⟨hdev, hres⟩ := get_some_sorted D L lf hD hL res devA h
  constructor
  · rw [hdev]
    congr 1
    funext e
    rw [newerThan, ← decide_not]
    exact decide_eq_decide.mpr (by constructor <;> omega)
  · rw [hres]
    have h1 : (sortByTs ((D.filter (newerThan lf.timestamp)).reverse)).Perm
        ((D.filter (newerThan lf.timestamp)).reverse) :=
      List.perm_insertionSort tsLe _
    have h2 : ((D.filter (newerThan lf.timestamp)).reverse).Perm
        (D.filter (newerThan lf.timestamp)) := List.reverse_perm _
    have h3 : D.filter (newerThan lf.timestamp) =
        D.filter (fun e => decide (lf.timestamp < e.timestamp)) := rfl
    rw [h3] at h2
    exact h1.trans h2

theorem new_entries_mutates_device_witness :
    (List.Sorted tsLe ([⟨1, "a"⟩, ⟨3, "c"⟩] : List LogEntry) ∧
      ([⟨2, "b"⟩] : List LogEntry).getLast? = some ⟨2, "b"⟩ ∧
      get_list_of_new_entries [⟨1, "a"⟩, ⟨3, "c"⟩] [⟨2, "b"⟩] =
        some ([⟨3, "c"⟩], [⟨1, "a"⟩])) ∧
    (([⟨1, "a"⟩] : List LogEntry) =
        ([⟨1, "a"⟩, ⟨3, "c"⟩] : List LogEntry).filter
          (fun e => decide (e.timestamp ≤ (2 : Int))) ∧
      ([⟨3, "c"⟩] : List LogEntry).Perm
        (([⟨1, "a"⟩, ⟨3, "c"⟩] : List LogEntry).filter
          (fun e => decide ((2 : Int) < e.timestamp)))) :=
  ⟨⟨by decide, by decide, by decide⟩,
    new_entries_mutates_device [⟨1, "a"⟩, ⟨3, "c"⟩] [⟨2, "b"⟩] ⟨2, "b"⟩
      [⟨3, "c"⟩] [⟨1, "a"⟩] (by decide) (by decide) (by decide)⟩

/-- Claim C1 is refuted by the code: with local list `[(1, a)]` and device
list `[(2, b)]` (both sorted, non-empty, and every device timestamp
strictly above the watermark) the while loop pops the whole device list
and then evaluates `device_entries[-1]` on an empty list, raising
`IndexError` (modelled as `none`) instead of returning all of
`device_entries`. -/
theorem new_entries_all_newer_raises :
    get_list_of_new_entries [⟨2, "b"⟩] [⟨1, "a"⟩] = none := by decide

/-- Claim C4: the diff boundary is idempotent.  If a first call on sorted
inputs succeeds and returns `N`, then appending `N` to the local list and
re-running the diff against the same device list returns no new entries
(and performs no pops). -/
theorem new_entries_idempotent (D L N devA : List LogEntry)
    (hD : List.Sorted tsLe D) (hLs : List.Sorted tsLe L)
    (h : get_list_of_new_entries D L = some (N, devA)) :
    get_list_of_new_entries D (L ++ N) = some ([], D) := by
  cases hL : L.getLast? with
  | none =>
    have hLnil : L = [] := List.getLast?_eq_none_iff.mp hL
    subst hLnil
    have h2 : (some (D, D) : Option (List LogEntry × List LogEntry)) =
        some (N, devA) := h
    have hND : D = N := by
      injection h2 with h'
      exact congrArg Prod.fst h'
    rw [← hND, List.nil_append]
    cases D with
    | nil => rfl
    | cons d ds =>
      have hm : (d :: ds).getLast? = some ((d :: ds).getLast (by simp)) :=
        List.getLast?_eq_getLast _ _
      obtain ⟨t, ht⟩ : ∃ t, (d :: ds).reverse =
          (d :: ds).getLast (by simp) :: t := by
        have h1 : (d :: ds).reverse.head? = some ((d :: ds).getLast (by simp)) := by
          rw [← List.getLast?_eq_head?_reverse]
          exact hm
        cases hr : (d :: ds).reverse with
        | nil => rw [hr] at h1; exact absurd h1 (by simp)
        | cons a t =>
          rw [hr] at h1
          simp at h1
          exact ⟨t, by rw [h1]⟩
      have hpop : popNewer ((d :: ds).getLast (by simp)).timestamp
          ((d :: ds).getLast (by simp) :: t) =
          some ([], (d :: ds).getLast (by simp) :: t) := by
        simp only [popNewer]
        rw [if_neg (lt_irrefl _)]
      rw [get_list_of_new_entries, hm]
      simp only [List.isEmpty_cons, Bool.false_eq_true, if_false]
      rw [ht, hpop]
      have hrr : ((d :: ds).getLast (by simp) :: t).reverse = d :: ds := by
        rw [← ht, List.reverse_reverse]
      simp [sortByTs, List.insertionSort, hrr]
  | some lf =>
    cases D with
    | nil =>
      rw [get_list_of_new_entries, hL] at h
      simp only [List.isEmpty_nil, if_true] at h
      have hN : N = [] := by
        injection h with h'
        exact (congrArg Prod.fst h').symm
      subst hN
      rw [List.append_nil, get_list_of_new_entries, hL]
      simp only [List.isEmpty_nil, if_true]
    | cons d ds =>
      obtain ⟨dl, t, hDr⟩ : ∃ dl t, (d :: ds).reverse = dl :: t := by
        cases hr : (d :: ds).reverse with
        | nil => exact absurd hr (by simp)
        | cons a b => exact ⟨a, b, rfl⟩
      rw [get_list_of_new_entries, hL] at h
      simp only [List.isEmpty_cons, Bool.false_eq_true, if_false] at h
      rw [popNewer_eq] at h
      by_cases hnil : (d :: ds).reverse.dropWhile (newerThan lf.timestamp) = []
      · rw [if_pos hnil] at h
        exact absurd h (by simp)
      · rw [if_neg hnil] at h
        have hN : N = sortByTs ((d :: ds).reverse.takeWhile (newerThan lf.timestamp)) := by
          injection h with h'
          exact (congrArg Prod.fst h').symm
        cases htk : (d :: ds).reverse.takeWhile (newerThan lf.timestamp) with
        | nil =>
          have hN0 : N = [] := by rw [hN, htk]; rfl
          have hPdl : newerThan lf.timestamp dl = false := by
            rw [hDr, List.takeWhile_cons] at htk
            cases hb : newerThan lf.timestamp dl with
            | false => rfl
            | true => rw [hb] at htk; exact absurd htk (by simp)
          have hpop : popNewer lf.timestamp (dl :: t) = some ([], dl :: t) := by
            simp only [popNewer]
            rw [if_neg (by simpa [newerThan] using hPdl)]
          rw [hN0, List.append_nil, get_list_of_new_entries, hL]
          simp only [List.isEmpty_cons, Bool.false_eq_true, if_false]
          rw [hDr, hpop]
          have hrr : (dl :: t).reverse = d :: ds := by
            rw [← hDr, List.reverse_reverse]
          simp [sortByTs, List.insertionSort, hrr]
        | cons a rest =>
          have hadl : a = dl ∧ newerThan lf.timestamp dl = true := by
            rw [hDr, List.takeWhile_cons] at htk
            cases hb : newerThan lf.timestamp dl with
            | false => rw [hb] at htk; exact absurd htk (by simp)
            | true =>
              rw [hb] at htk
              refine ⟨?_, rfl⟩
              injection htk with h1 h2
              exact h1.symm
          have hdlN : dl ∈ N := by
            rw [hN, htk]
            exact ((List.perm_insertionSort tsLe _).mem_iff).mpr
              (by rw [hadl.1]; exact List.mem_cons_self _ _)
          have hNne : N ≠ [] := List.ne_nil_of_mem hdlN
          obtain ⟨m, hm⟩ : ∃ m, N.getLast? = some m := by
            cases hNl : N with
            | nil => exact absurd hNl hNne
            | cons x xs =>
              exact ⟨(x :: xs).getLast (by simp), List.getLast?_eq_getLast _ _⟩
          have hsortN : List.Sorted tsLe N := by
            rw [hN]
            exact List.sorted_insertionSort tsLe _
          have hdlle : dl.timestamp ≤ m.timestamp :=
            sorted_getLast_max N m hsortN hm dl hdlN
          have hLN : (L ++ N).getLast? = some m := by
            rw [List.getLast?_append, hm]
            rfl
          have hpop : popNewer m.timestamp (dl :: t) = some ([], dl :: t) := by
            simp only [popNewer]
            rw [if_neg (not_lt.mpr hdlle)]
          rw [get_list_of_new_entries, hLN]
          simp only [List.isEmpty_cons, Bool.false_eq_true, if_false]
          rw [hDr, hpop]
          have hrr : (dl :: t).reverse = d :: ds := by
            rw [← hDr, List.reverse_reverse]
          simp [sortByTs, List.insertionSort, hrr]

theorem new_entries_idempotent_witness :
    (List.Sorted tsLe ([⟨1, "a"⟩, ⟨3, "c"⟩] : List LogEntry) ∧
      List.Sorted tsLe ([⟨2, "b"⟩] : List LogEntry) ∧
      get_list_of_new_entries [⟨1, "a"⟩, ⟨3, "c"⟩] [⟨2, "b"⟩] =
        some ([⟨3, "c"⟩], [⟨1, "a"⟩])) ∧
    get_list_of_new_entries [⟨1, "a"⟩, ⟨3, "c"⟩] ([⟨2, "b"⟩] ++ [⟨3, "c"⟩]) =
      some ([], [⟨1, "a"⟩, ⟨3, "c"⟩]) :=
  ⟨⟨by decide, by decide, by decide⟩,
    new_entries_idempotent [⟨1, "a"⟩, ⟨3, "c"⟩] [⟨2, "b"⟩] [⟨3, "c"⟩]
      [⟨1, "a"⟩] (by decide) (by decide) (by decide)⟩

/-- One record of the parsing stage: `LogEntry.__init__` stores whatever
`dateparser.parse` returned, which is `None` (here `none`) when the prefix
could not be resolved to an instant. -/
structure LogEntryP where
  timestamp : Option Int
  message : String
  deriving DecidableEq, Repr

/-- Python ASCII whitespace, as stripped by `str.strip()`. -/
def isPySpace (c : Char) : Bool :=
  c = ' ' || c = '\t' || c = '\n' || c = '\r' || c = '\x0b' || c = '\x0c'

/-- Python `s[:n]` (code-point slicing). -/
def pyTake (s : String) (n : Nat) : String := String.mk (s.data.take n)

/-- Python `s[n:]` (code-point slicing). -/
def pyDrop (s : String) (n : Nat) : String := String.mk (s.data.drop n)

/-- Python `s.strip()` restricted to ASCII whitespace. -/
def pyStrip (s : String) : String :=
  String.mk (((s.data.dropWhile isPySpace).reverse.dropWhile isPySpace).reverse)

/-- Model of `LogEntry.__init__(logstring, msg_offset)` (`classes.py` lines
13-16).  `dateparser.parse` is abstracted as the function `p`, which
returns `none` exactly on prefixes that cannot be resolved to an instant.
The constructor is total: it never raises, and an unresolvable prefix
simply yields `timestamp = none`. -/
def LogEntryP.init (p : String → Option Int) (logstring : String)
    (msg_offset : Nat) : LogEntryP :=
  { timestamp := p (pyTake logstring msg_offset),
    message := pyStrip (pyDrop logstring msg_offset) }

def pySplitAux (sep : Char) : List Char → List Char → List String
  | [], acc => [String.mk acc.reverse]
  | c :: rest, acc =>
    if c = sep then String.mk acc.reverse :: pySplitAux sep rest []
    else pySplitAux sep rest (c :: acc)

/-- Python `s.split(sep)` for a one-character separator: splits at every
occurrence and keeps empty pieces, so the result is never empty. -/
def pySplit (s : String) (sep : Char) : List String := pySplitAux sep s.data []

/-- Order on parsed entries by timestamp; meaningful when both timestamps
are known to be non-`none` (the only situation in which the sort model
below compares entries). -/
def tsLeP (a b : LogEntryP) : Prop := a.timestamp.getD 0 ≤ b.timestamp.getD 0

instance : DecidableRel tsLeP := fun a b => Int.decLe (a.timestamp.getD 0) (b.timestamp.getD 0)

instance : IsTotal LogEntryP tsLeP := ⟨fun a b => Int.le_total _ _⟩

instance : IsTrans LogEntryP tsLeP := ⟨fun _ _ _ hab hbc => le_trans hab hbc⟩

/-- Model of `log_entries.sort(key=lambda entry: entry.timestamp)` at the
parsing stage, where timestamps may be `None`.  With at most one element
no comparison happens.  With two or more elements every element takes part
in at least one comparison (Timsort compares each adjacent pair while
detecting runs), and any comparison involving `None` raises `TypeError`,
modelled as `none`. -/
def pySortEntriesP (l : List LogEntryP) : Option (List LogEntryP) :=
  if l.length ≤ 1 then some l
  else if l.all (fun e => e.timestamp.isSome) then
    some (List.insertionSort tsLeP l)
  else none

/-- Model of `get_list_from_device` (`isp_toolkit.py` lines 115-138): the
raw `NewDeviceLog` blob is split on newlines, every line (malformed or
not) is parsed with the device prefix width 18, and the list is sorted by
timestamp.  No line is ever discarded. -/
def get_list_from_device (blob : String) (p : String → Option Int) :
    Option (List LogEntryP) :=
  pySortEntriesP ((pySplit blob '\n').map (fun line => LogEntryP.init p line 18))

/-- Model of `load_list_from_logfile` (`isp_toolkit.py` lines 62-89): the
local file is `some` list of raw lines, or `none` when absent
(`FileNotFoundError` is swallowed, leaving an empty line list); every line
is parsed with the persisted-format prefix width 20 and the result is
sorted by timestamp. -/
def load_list_from_logfile (file? : Option (List String))
    (p : String → Option Int) : Option (List LogEntryP) :=
  pySortEntriesP ((file?.getD []).map (fun line => LogEntryP.init p line 20))

theorem sorted_of_short {α : Type} (R : α → α → Prop) (l : List α)
    (h : l.length ≤ 1) : List.Sorted R l := by
  cases l with
  | nil => exact List.sorted_nil
  | cons a t =>
    cases t with
    | nil => exact List.sorted_singleton a
    | cons b u => simp at h

/-- Claim C3 as stated is refuted: parsing a line with an unresolvable
prefix does not fail, and the resulting null-timestamp entry is returned
by `get_list_from_device` into the diffing pipeline (here: a single-line
blob whose prefix parses to nothing). -/
theorem device_fetch_returns_unparsed_entry :
    get_list_from_device ("not a log line") (fun _ => none) =
      some [{ timestamp := none, message := "" }] := by decide

/-- Claim C3, amended: on a line whose fixed-width prefix cannot be
resolved, `LogEntry.__init__` does not raise but yields an entry with
timestamp `none`; the parse stage does not discard it (a singleton list
passes the sort untouched), and as soon as a second entry is present the
sort over a `none` timestamp raises `TypeError`, aborting the fetch. -/
theorem unparseable_prefix_not_discarded (p : String → Option Int) (s : String)
    (h : p (pyTake s 18) = none) :
    (LogEntryP.init p s 18).timestamp = none ∧
    pySortEntriesP [LogEntryP.init p s 18] = some [LogEntryP.init p s 18] ∧
    ∀ e : LogEntryP, pySortEntriesP [LogEntryP.init p s 18, e] = none := by
  refine ⟨h, rfl, ?_⟩
  intro e
  simp [pySortEntriesP, LogEntryP.init, h]

theorem unparseable_prefix_not_discarded_witness :
    ((fun _ : String => (none : Option Int)) (pyTake ("") 18) = none) ∧
    ((LogEntryP.init (fun _ => none) ("") 18).timestamp = none ∧
      pySortEntriesP [LogEntryP.init (fun _ => none) ("") 18] =
        some [LogEntryP.init (fun _ => none) ("") 18] ∧
      ∀ e : LogEntryP,
        pySortEntriesP [LogEntryP.init (fun _ => none) ("") 18, e] = none) :=
  ⟨rfl, unparseable_prefix_not_discarded (fun _ => none) ("") rfl⟩

/-- Claim C9: `load_list_from_logfile` treats an absent file as an empty
sequence (not an error), parses each raw line with the persisted-format
prefix width 20, and whenever it returns, the returned entries are a
permutation of the parsed lines sorted ascending by timestamp. -/
theorem load_contract (p : String → Option Int) :
    load_list_from_logfile none p = some [] ∧
    ∀ (lines : List String) (entries : List LogEntryP),
      load_list_from_logfile (some lines) p = some entries →
      List.Sorted tsLeP entries ∧
      entries.Perm (lines.map (fun line => LogEntryP.init p line 20)) := by
  constructor
  · rfl
  · intro lines entries h
    rw [load_list_from_logfile, pySortEntriesP] at h
    simp only [Option.getD_some] at h
    by_cases h1 : ((lines.map (fun line => LogEntryP.init p line 20)).length ≤ 1)
    · rw [if_pos h1] at h
      injection h with h'
      rw [← h']
      exact ⟨sorted_of_short tsLeP _ h1, List.Perm.refl _⟩
    · rw [if_neg h1] at h
      by_cases h2 : (lines.map (fun line => LogEntryP.init p line 20)).all
          (fun e => e.timestamp.isSome)
      · rw [if_pos h2] at h
        injection h with h'
        rw [← h']
        exact ⟨List.sorted_insertionSort tsLeP _, List.perm_insertionSort tsLeP _⟩
      · rw [if_neg h2] at h
        exact absurd h (by simp)

theorem load_contract_witness :
    load_list_from_logfile (some [("aaa")]) (fun _ => some 5) =
      some [{ timestamp := some 5, message := "" }] ∧
    (List.Sorted tsLeP [({ timestamp := some 5, message := "" } : LogEntryP)] ∧
      ([({ timestamp := some 5, message := "" } : LogEntryP)]).Perm
        ([("aaa")].map (fun line => LogEntryP.init (fun _ => some 5) line 20))) :=
  ⟨by decide,
    (load_contract (fun _ => some 5)).2 [("aaa")]
      [{ timestamp := some 5, message := "" }] (by decide)⟩

/-- A timezone-aware instant broken into Gregorian calendar fields plus a
UTC offset in minutes, at second resolution (the device log format carries
no sub-second precision, so `microsecond = 0` and Python's `isoformat()`
omits the fractional part). -/
structure Datetime where
  year : Int
  month : Nat
  day : Nat
  hour : Nat
  minute : Nat
  second : Nat
  offsetMin : Int
  deriving DecidableEq, Repr

/-- Days since 1970-01-01 of a Gregorian date (civil-to-days). -/
def daysFromCivil (y : Int) (m d : Nat) : Int :=
  let y' : Int := if m ≤ 2 then y - 1 else y
  let era : Int := (if 0 ≤ y' then y' else y' - 399) / 400
  let yoe : Int := y' - era * 400
  let mp : Int := (Int.ofNat m + 9) % 12
  let doy : Int := (153 * mp + 2) / 5 + Int.ofNat d - 1
  let doe : Int := yoe * 365 + yoe / 4 - yoe / 100 + doy
  era * 146097 + doe - 719468

/-- Gregorian date of a days-since-epoch count (days-to-civil). -/
def civilFromDays (z0 : Int) : Int × Nat × Nat :=
  let z : Int := z0 + 719468
  let era : Int := (if 0 ≤ z then z else z - 146096) / 146097
  let doe : Int := z - era * 146097
  let yoe : Int := (doe - doe / 1460 + doe / 36524 - doe / 146096) / 365
  let y : Int := yoe + era * 400
  let doy : Int := doe - (365 * yoe + yoe / 4 - yoe / 100)
  let mp : Int := (5 * doy + 2) / 153
  let d : Int := doy - (153 * mp + 2) / 5 + 1
  let m : Int := if mp < 10 then mp + 3 else mp - 9
  (if m ≤ 2 then y + 1 else y, m.toNat, d.toNat)

/-- Seconds since the Unix epoch of the instant denoted by a `Datetime`. -/
def toEpochSec (dt : Datetime) : Int :=
  daysFromCivil dt.year dt.month dt.day * 86400 + (dt.hour : Int) * 3600 +
    (dt.minute : Int) * 60 + (dt.second : Int) - dt.offsetMin * 60

/-- The `Datetime` with UTC offset `offMin` denoting epoch instant `t`. -/
def fromEpochSec (t offMin : Int) : Datetime :=
  let loc : Int := t + offMin * 60
  let days : Int := Int.fdiv loc 86400
  let sod : Nat := (Int.fmod loc 86400).toNat
  let c := civilFromDays days
  { year := c.1, month := c.2.1, day := c.2.2, hour := sod / 3600,
    minute := sod % 3600 / 60, second := sod % 60, offsetMin := offMin }

/-- Python `datetime.astimezone()`: the same instant expressed in the local
timezone (`localOffMin` minutes east of UTC). -/
def astimezone (localOffMin : Int) (dt : Datetime) : Datetime :=
  fromEpochSec (toEpochSec dt) localOffMin

def pad2 (n : Nat) : String :=
  (if n < 10 then ("0") else ("")) ++ toString n

def pad4 (n : Nat) : String :=
  (if n < 10 then ("000")
   else if n < 100 then ("00")
   else if n < 1000 then ("0")
   else ("")) ++ toString n

/-- The `+HH:MM` / `-HH:MM` suffix Python appends to `isoformat()` of an
aware datetime. -/
def offsetIso (offMin : Int) : String :=
  if 0 ≤ offMin then
    ("+") ++ pad2 (offMin.toNat / 60) ++ (":") ++ pad2 (offMin.toNat % 60)
  else
    ("-") ++ pad2 ((-offMin).toNat / 60) ++ (":") ++ pad2 ((-offMin).toNat % 60)

/-- Python `datetime.isoformat()` for an aware datetime with
`microsecond = 0`: `YYYY-MM-DDTHH:MM:SS±HH:MM`, 25 code points. -/
def isoformat (dt : Datetime) : String :=
  pad4 dt.year.toNat ++ ("-") ++ pad2 dt.month ++ ("-") ++ pad2 dt.day ++ ("T")
    ++ pad2 dt.hour ++ (":") ++ pad2 dt.minute ++ (":") ++ pad2 dt.second
    ++ offsetIso dt.offsetMin

/-- A log entry of the serialization stage: its timestamp resolved to an
aware instant, kept in calendar form so that `__str__` can be rendered. -/
structure LogEntryS where
  timestamp : Datetime
  message : String
  deriving DecidableEq, Repr

/-- Model of `LogEntry.__str__` (`classes.py` lines 18-20):
`f"{self.timestamp.astimezone().isoformat()} {str(self.message)}"`, where
`localOffMin` is the machine's local UTC offset applied by
`astimezone()`. -/
def LogEntryS.str (localOffMin : Int) (e : LogEntryS) : String :=
  isoformat (astimezone localOffMin e.timestamp) ++ (" ") ++ e.message

/-- Claim C2 is refuted (code bug): serialize the entry with timestamp
2025-01-02T03:04:05+00:00 (machine local offset 0) and message `x`, then
parse the line back with the persisted-format width `msg_offset = 20` used
by `load_list_from_logfile`.  The serialized ISO prefix is 25 code points,
so the split at 20 lands inside the UTC offset: the recovered message is
`00:00 x` rather than `x`, and the prefix handed to `dateparser` is the
truncated `2025-01-02T03:04:05+`. -/
theorem roundtrip_broken_at_offset_20 :
    LogEntryS.str 0 ⟨⟨2025, 1, 2, 3, 4, 5, 0⟩, ("x")⟩ =
      ("2025-01-02T03:04:05+00:00 x") ∧
    (∀ p : String → Option Int,
      (LogEntryP.init p (LogEntryS.str 0 ⟨⟨2025, 1, 2, 3, 4, 5, 0⟩, ("x")⟩)
          20).message = ("00:00 x")) ∧
    pyTake (LogEntryS.str 0 ⟨⟨2025, 1, 2, 3, 4, 5, 0⟩, ("x")⟩) 20 =
      ("2025-01-02T03:04:05+") ∧
    ("00:00 x") ≠ ("x") := by
  refine ⟨by decide, fun p => ?_, by decide, by decide⟩
  show pyStrip (pyDrop (LogEntryS.str 0 ⟨⟨2025, 1, 2, 3, 4, 5, 0⟩, ("x")⟩) 20) =
    ("00:00 x")
  decide

/-- The instant order by which Python compares aware datetimes, lifted to
serialization-stage entries (the key of `append_list_to_logfile`'s sort). -/
def tsLeS (a b : LogEntryS) : Prop :=
  toEpochSec a.timestamp ≤ toEpochSec b.timestamp

instance : DecidableRel tsLeS := fun a b =>
  Int.decLe (toEpochSec a.timestamp) (toEpochSec b.timestamp)

instance : IsTotal LogEntryS tsLeS := ⟨fun a b => Int.le_total _ _⟩

instance : IsTrans LogEntryS tsLeS := ⟨fun _ _ _ hab hbc => le_trans hab hbc⟩

/-- `log_entries.sort(key=lambda entry: entry.timestamp)` on entries whose
timestamps are aware datetimes. -/
def pySortS (l : List LogEntryS) : List LogEntryS := List.insertionSort tsLeS l

/-- Model of `append_list_to_logfile(log_entries, filepath)`
(`isp_toolkit.py` lines 92-112): sort the entries ascending by timestamp,
open the file in mode `a` (existing content untouched and never read;
an absent file behaves as empty), and write `str(entry) + "\n"` for each
entry in order.  The result is the file's content after the call. -/
def append_list_to_logfile (log_entries : List LogEntryS) (localOffMin : Int)
    (file? : Option String) : String :=
  (pySortS log_entries).foldl
    (fun content e => content ++ LogEntryS.str localOffMin e ++ ("\n"))
    (file?.getD (""))

/-- The block of text `append_list_to_logfile` produces for a list of
entries: one serialized line per entry, in list order. -/
def renderedLines (localOffMin : Int) (l : List LogEntryS) : String :=
  (l.map (fun e => LogEntryS.str localOffMin e ++ ("\n"))).foldr
    (fun a b => a ++ b) ("")

theorem foldl_render (localOffMin : Int) (l : List LogEntryS) (c : String) :
    l.foldl (fun content e => content ++ LogEntryS.str localOffMin e ++ ("\n")) c =
      c ++ renderedLines localOffMin l := by
  induction l generalizing c with
  | nil => simp [renderedLines]
  | cons e t ih =>
    rw [List.foldl_cons, ih]
    simp [renderedLines, String.append_assoc]

/-- Claim C10: `append_list_to_logfile` first re-sorts the entries
ascending by timestamp and then appends their serialized lines after the
existing content, which it never reads or rewrites (an absent file starts
as empty).  Appending the out-of-order pair `[(T=..:02, y), (T=..:01, x)]`
to an absent file yields the line for `x` followed by the line for `y`. -/
theorem append_only_and_resorts :
    (∀ (es : List LogEntryS) (off : Int) (f : String),
      append_list_to_logfile es off (some f) =
        f ++ renderedLines off (pySortS es)) ∧
    append_list_to_logfile
        [⟨⟨2025, 1, 2, 3, 4, 2, 0⟩, ("y")⟩, ⟨⟨2025, 1, 2, 3, 4, 1, 0⟩, ("x")⟩]
        0 none =
      ("2025-01-02T03:04:01+00:00 x\n2025-01-02T03:04:02+00:00 y\n") := by
  constructor
  · intro es off f
    rw [append_list_to_logfile]
    exact foldl_render off (pySortS es) f
  · decide

end Fritz
